import Mathlib

/-!
Verification of the boolean search query engine of the personal-notes
application (`lib/memo/search.py`, `lib/memo/db.py`, `lib/memo/highlight.py`).

Strings are modelled as `List Char` (Python strings are sequences of Unicode
code points).  Python library functions over Unicode data
(`unicodedata.normalize("NFKC", ·)`, `str.isspace`, `str.lower`, `str.upper`,
`str.isalnum`) are modelled character-wise on the character repertoire
exercised by this code base (ASCII, Japanese kana, CJK ideographs, and the
full-width compatibility variants); characters outside that repertoire are
treated as inert (no case mapping, not alphanumeric, NFKC-stable), which
matches the Unicode data for every character appearing in the development.
-/

/-- Character list of a string literal. -/
def strL (s : String) : List Char := s.data

/-- Models Python `str.isspace` / the `\s` class of the `re` module:
the Unicode white-space characters together with the bidi separators
U+001C–U+001F and U+0085 (CPython's `Py_UNICODE_ISSPACE`). -/
def pySpace (c : Char) : Bool :=
  decide ((9 ≤ c.toNat ∧ c.toNat ≤ 13) ∨ (28 ≤ c.toNat ∧ c.toNat ≤ 31) ∨
    c.toNat = 32 ∨ c.toNat = 0x85 ∨ c.toNat = 0xA0 ∨ c.toNat = 0x1680 ∨
    (0x2000 ≤ c.toNat ∧ c.toNat ≤ 0x200A) ∨ c.toNat = 0x2028 ∨
    c.toNat = 0x2029 ∨ c.toNat = 0x202F ∨ c.toNat = 0x205F ∨ c.toNat = 0x3000)

/-- Models Python `str.lower` character-wise: ASCII and full-width Latin
capitals map to their lower-case forms, everything else in the repertoire is
unchanged. -/
def pyLowerChar (c : Char) : Char :=
  if 65 ≤ c.toNat ∧ c.toNat ≤ 90 then Char.ofNat (c.toNat + 32)
  else if 0xFF21 ≤ c.toNat ∧ c.toNat ≤ 0xFF3A then Char.ofNat (c.toNat + 32)
  else c

/-- Models Python `str.upper` character-wise (inverse direction of
`pyLowerChar`). -/
def pyUpperChar (c : Char) : Char :=
  if 97 ≤ c.toNat ∧ c.toNat ≤ 122 then Char.ofNat (c.toNat - 32)
  else if 0xFF41 ≤ c.toNat ∧ c.toNat ≤ 0xFF5A then Char.ofNat (c.toNat - 32)
  else c

/-- Models Python `str.isalnum` on the repertoire used here: ASCII digits and
letters, hiragana and katakana letters (excluding the punctuation code points
inside those blocks), CJK unified ideographs, and the full-width digit/letter
variants. -/
def pyIsAlnum (c : Char) : Bool :=
  decide ((48 ≤ c.toNat ∧ c.toNat ≤ 57) ∨ (65 ≤ c.toNat ∧ c.toNat ≤ 90) ∨
    (97 ≤ c.toNat ∧ c.toNat ≤ 122) ∨
    (0x3041 ≤ c.toNat ∧ c.toNat ≤ 0x3096) ∨
    (0x309D ≤ c.toNat ∧ c.toNat ≤ 0x309F) ∨
    (0x30A1 ≤ c.toNat ∧ c.toNat ≤ 0x30FA) ∨
    (0x30FC ≤ c.toNat ∧ c.toNat ≤ 0x30FF) ∨
    (0x4E00 ≤ c.toNat ∧ c.toNat ≤ 0x9FFF) ∨
    (0xFF10 ≤ c.toNat ∧ c.toNat ≤ 0xFF19) ∨
    (0xFF21 ≤ c.toNat ∧ c.toNat ≤ 0xFF3A) ∨
    (0xFF41 ≤ c.toNat ∧ c.toNat ≤ 0xFF5A))

/-- Models `unicodedata.normalize("NFKC", ·)` character-wise: the full-width
ASCII variants U+FF01–U+FF5E fold to their ASCII counterparts and the
ideographic space U+3000 folds to a plain space; every other character of the
repertoire is NFKC-stable. -/
def nfkcChar (c : Char) : List Char :=
  if 0xFF01 ≤ c.toNat ∧ c.toNat ≤ 0xFF5E then [Char.ofNat (c.toNat - 0xFEE0)]
  else if c.toNat = 0x3000 then [' ']
  else [c]

/-- `unicodedata.normalize("NFKC", s)` on a whole string. -/
def nfkc (s : List Char) : List Char := s.flatMap nfkcChar

/-- Models `re.sub(r"\s+", " ", s)`: every maximal run of white-space
characters becomes a single ASCII space.  The boolean argument records
whether the previous character belonged to a run already replaced. -/
def subWsAux : Bool → List Char → List Char
  | _, [] => []
  | prevSpace, c :: rest =>
    if pySpace c then
      if prevSpace then subWsAux true rest else ' ' :: subWsAux true rest
    else c :: subWsAux false rest

/-- `re.sub(r"\s+", " ", s)`. -/
def subWs (s : List Char) : List Char := subWsAux false s

/-- Models Python `str.strip()`: drop white space from both ends. -/
def pyStrip (s : List Char) : List Char :=
  ((s.dropWhile pySpace).reverse.dropWhile pySpace).reverse

/-- `_norm_text` from `lib/memo/search.py`: NFKC, lower-case, collapse
white-space runs, trim. -/
def normText (s : List Char) : List Char :=
  pyStrip (subWs ((nfkc s).map pyLowerChar))

/-- The token type of the plain-search pipeline.  The source represents a
token as an object with a `kind` string and an optional `val`; the five kinds
are `TERM`, `AND`, `OR`, `(`, `)`. -/
inductive Tok where
  | term (val : List Char)
  | and
  | or
  | lp
  | rp
deriving DecidableEq, Repr

/-- A character at which a bareword read stops in `_tokenize`
(white space, parenthesis, or double quote). -/
def tokStop (c : Char) : Bool :=
  pySpace c || c = '(' || c = ')' || c = '"'

/-- The scanning loop of `_tokenize` from `lib/memo/search.py`.  The source
advances an index `i` through the string; here the remaining characters are
passed explicitly and the fuel argument bounds the number of loop iterations
(each iteration consumes at least one character, so fuel equal to the string
length is always sufficient). -/
def tokGoF : Nat → List Char → List Tok
  | 0, _ => []
  | _ + 1, [] => []
  | f + 1, c :: rest =>
    if pySpace c then tokGoF f rest
    else if c = '(' then Tok.lp :: tokGoF f rest
    else if c = ')' then Tok.rp :: tokGoF f rest
    else if c = '"' then
      let phrase := rest.takeWhile (fun x => x ≠ '"')
      let rest2 := rest.dropWhile (fun x => x ≠ '"')
      let rest3 := if rest2.head? = some '"' then rest2.tail else rest2
      let ph := normText phrase
      if ph = [] then tokGoF f rest3 else Tok.term ph :: tokGoF f rest3
    else
      let chunk := c :: rest.takeWhile (fun x => !tokStop x)
      let rest2 := rest.dropWhile (fun x => !tokStop x)
      let rn := normText chunk
      if rn = strL "and" then Tok.and :: tokGoF f rest2
      else if rn = strL "or" then Tok.or :: tokGoF f rest2
      else if rn = [] then tokGoF f rest2
      else Tok.term rn :: tokGoF f rest2

/-- `_tokenize` from `lib/memo/search.py`. -/
def tokenize (query : List Char) : List Tok :=
  let q := pyStrip (nfkc query)
  if q = [] then [] else tokGoF q.length q

/-- A token that may end a value (`TERM` or `)`), in `_insert_implicit_and`. -/
def isValueEnd : Tok → Bool
  | Tok.term _ => true
  | Tok.rp => true
  | _ => false

/-- A token that may start a value (`TERM` or `(`), in
`_insert_implicit_and`. -/
def isValueStart : Tok → Bool
  | Tok.term _ => true
  | Tok.lp => true
  | _ => false

/-- Loop of `_insert_implicit_and`: `prev` is the token last appended to the
output (in the source, `out[-1]`). -/
def iiaGo : Tok → List Tok → List Tok
  | _, [] => []
  | prev, t :: rest =>
    if isValueEnd prev && isValueStart t then Tok.and :: t :: iiaGo t rest
    else t :: iiaGo t rest

/-- `_insert_implicit_and` from `lib/memo/search.py`. -/
def insertImplicitAnd : List Tok → List Tok
  | [] => []
  | t :: rest => t :: iiaGo t rest

/-- Operator token (`AND` or `OR`). -/
def isOpTok : Tok → Bool
  | Tok.and => true
  | Tok.or => true
  | _ => false

/-- Operator precedence table of `_to_rpn`: `AND` = 2, `OR` = 1. -/
def precTok : Tok → Nat
  | Tok.and => 2
  | Tok.or => 1
  | _ => 0

/-- The inner `while` loop of `_to_rpn` for an incoming operator of
precedence `p`: pop operators of precedence ≥ `p` off the stack.  Returns the
popped operators (in pop order) and the remaining stack. -/
def popGE (p : Nat) : List Tok → List Tok × List Tok
  | [] => ([], [])
  | top :: rest =>
    if isOpTok top && p ≤ precTok top then
      let r := popGE p rest
      (top :: r.1, r.2)
    else ([], top :: rest)

/-- The inner `while` loop of `_to_rpn` for a right parenthesis: pop tokens
until a `(` is found (which is discarded); an unmatched `)` just drains the
stack (lenient). -/
def popTilLP : List Tok → List Tok × List Tok
  | [] => ([], [])
  | top :: rest =>
    if top = Tok.lp then ([], rest)
    else
      let r := popTilLP rest
      (top :: r.1, r.2)

/-- The final drain of `_to_rpn`: pop everything, discarding leftover
parentheses. -/
def drainStack (st : List Tok) : List Tok :=
  st.filter fun t =>
    match t with
    | Tok.lp => false
    | Tok.rp => false
    | _ => true

/-- Main loop of `_to_rpn` (shunting-yard), carrying the output queue and the
operator stack. -/
def rpnGo : List Tok → List Tok → List Tok → List Tok
  | [], out, stack => out ++ drainStack stack
  | Tok.term v :: ts, out, stack => rpnGo ts (out ++ [Tok.term v]) stack
  | Tok.and :: ts, out, stack =>
    let r := popGE 2 stack
    rpnGo ts (out ++ r.1) (Tok.and :: r.2)
  | Tok.or :: ts, out, stack =>
    let r := popGE 1 stack
    rpnGo ts (out ++ r.1) (Tok.or :: r.2)
  | Tok.lp :: ts, out, stack => rpnGo ts out (Tok.lp :: stack)
  | Tok.rp :: ts, out, stack =>
    let r := popTilLP stack
    rpnGo ts (out ++ r.1) r.2

/-- `_to_rpn` from `lib/memo/search.py`. -/
def toRpn (toks : List Tok) : List Tok := rpnGo toks [] []

/-- Python substring containment `needle in hay`. -/
def strIn (needle : List Char) (hay : List Char) : Bool :=
  match hay with
  | [] => needle.isEmpty
  | _ :: tl => needle.isPrefixOf hay || strIn needle tl

/-- Value pushed by `_eval_rpn` for a `TERM` token:
`bool(t.val) and (t.val in hay)`. -/
def termVal (hay t : List Char) : Bool := !t.isEmpty && strIn t hay

/-- The loop of `_eval_rpn`, with the boolean stack represented head-first
(the Python list grows at the end; `st.pop()` is the head here).  Missing
operands of `AND`/`OR` are `False` and unknown kinds are skipped, exactly as
in the source. -/
def evalGo (hay : List Char) : List Tok → List Bool → Bool
  | [], st => st.headD false
  | Tok.term v :: p, st => evalGo hay p (termVal hay v :: st)
  | Tok.and :: p, st =>
    match st with
    | b :: a :: r => evalGo hay p ((a && b) :: r)
    | [b] => evalGo hay p [false && b]
    | [] => evalGo hay p [false && false]
  | Tok.or :: p, st =>
    match st with
    | b :: a :: r => evalGo hay p ((a || b) :: r)
    | [b] => evalGo hay p [false || b]
    | [] => evalGo hay p [false || false]
  | Tok.lp :: p, st => evalGo hay p st
  | Tok.rp :: p, st => evalGo hay p st

/-- `_eval_rpn` from `lib/memo/search.py`. -/
def evalRpn (rpn : List Tok) (hay : List Char) : Bool := evalGo hay rpn []

/-- `_compile_query_to_rpn` from `lib/memo/search.py`. -/
def compileQueryToRpn (query : List Char) : List Tok :=
  toRpn (insertImplicitAnd (tokenize query))

/-- Parsed JSON payload of a note file, after the `isinstance(d, dict)` check
and the string coercions of `search_plain`: the title and content strings and
the list of tag strings.  Modelled from the spec (§3 haystack construction);
the JSON reading itself is I/O performed by `_safe_read_json`. -/
structure NoteDoc where
  title : List Char
  content : List Char
  tags : List (List Char)
deriving DecidableEq, Repr

/-- One candidate row of `search_plain`'s scan: the `notes_meta` row (kept
here as its `note_id`) together with the outcome of `_safe_read_json` on its
backing file — `none` models a missing, unreadable, or non-object JSON file
(`_safe_read_json` returns `None` on any exception, and `search_plain` also
skips any value that is not a dict). -/
structure Candidate where
  noteId : Nat
  doc : Option NoteDoc
deriving DecidableEq, Repr

/-- Python `" ".join(items)`. -/
def joinSpace : List (List Char) → List Char
  | [] => []
  | [t] => t
  | t :: ts => t ++ ' ' :: joinSpace ts

/-- The haystack built by `search_plain`:
`_norm_text(title) + "\n" + _norm_text(content) + "\n" + _norm_text(tags_str)`
with `tags_str = " ".join(tags)`. -/
def buildHay (d : NoteDoc) : List Char :=
  normText d.title ++ '\n' :: (normText d.content ++ '\n' :: normText (joinSpace d.tags))

/-- Whether a candidate matches: its JSON was readable and the compiled RPN
evaluates to true on its haystack. -/
def matchCand (rpn : List Tok) (c : Candidate) : Bool :=
  match c.doc with
  | none => false
  | some d => evalRpn rpn (buildHay d)

/-- The scan loop of `search_plain`: accumulate hits in order, skip unreadable
candidates, and `break` as soon as `len(hits) >= int(limit)` right after a hit
is appended. -/
def searchGo (rpn : List Tok) (limit : Int) (hits : List Candidate) :
    List Candidate → List Candidate
  | [] => hits
  | m :: rest =>
    match m.doc with
    | none => searchGo rpn limit hits rest
    | some d =>
      if evalRpn rpn (buildHay d) then
        if ((hits.length : Int) + 1) ≥ limit then hits ++ [m]
        else searchGo rpn limit (hits ++ [m]) rest
      else searchGo rpn limit hits rest

/-- `search_plain` from `lib/memo/search.py`, over an explicit candidate list
(the `notes_meta` rows in the caller's iteration order, paired with the result
of reading each backing file). -/
def searchPlain (cands : List Candidate) (query : List Char) (limit : Int) :
    List Candidate :=
  let q := pyStrip query
  if q = [] then []
  else
    let rpn := compileQueryToRpn q
    if rpn = [] then [] else searchGo rpn limit [] cands

/-- The keywords preserved by `_prefixify_query` (`OR`, `AND`, `NOT`). -/
def kwUpper : List (List Char) := [strL "OR", strL "AND", strL "NOT"]

/-- The `flush` closure of `_prefixify_query` in `lib/memo/db.py`: strip the
pending token; drop it if empty; keep keywords, tokens already ending in `*`,
and all-non-alphanumeric tokens unchanged; append `*` to everything else. -/
def flushTok (tok : List Char) : Option (List Char) :=
  let t := pyStrip tok
  if t = [] then none
  else if t.map pyUpperChar ∈ kwUpper then some t
  else if t.getLast? = some '*' then some t
  else if t.all (fun c => !pyIsAlnum c) then some t
  else some (t ++ ['*'])

/-- The character loop of `_prefixify_query`, carrying the emitted token list
`out`, the pending `token`, and the `in_quote` flag. -/
def ftsGo : List Char → List (List Char) → List Char → Bool → List (List Char)
  | [], out, token, inQuote =>
    if inQuote then out ++ [token] else out ++ (flushTok token).toList
  | c :: rest, out, token, inQuote =>
    if c = '"' then
      if inQuote then ftsGo rest (out ++ [token ++ ['"']]) [] false
      else
        let out2 := if pyStrip token ≠ [] then out ++ (flushTok token).toList else out
        ftsGo rest out2 ['"'] true
    else if inQuote then ftsGo rest out (token ++ [c]) true
    else if pySpace c then ftsGo rest (out ++ (flushTok token).toList) [] false
    else ftsGo rest out (token ++ [c]) false

/-- `_prefixify_query` from `lib/memo/db.py`. -/
def prefixifyQuery (q0 : List Char) : List Char :=
  let q := pyStrip q0
  if q = [] then q else joinSpace (ftsGo q [] [] false)

/-- One character of `html.escape(s)` (with its default `quote=True`). -/
def escChar (c : Char) : List Char :=
  if c = '&' then strL "&amp;"
  else if c = '<' then strL "&lt;"
  else if c = '>' then strL "&gt;"
  else if c = '"' then strL "&quot;"
  else if c = '\'' then strL "&#x27;"
  else [c]

/-- `html.escape` on a whole string (the sequential `str.replace` calls of
the library act character-wise because `&` is escaped first). -/
def htmlEscape (s : List Char) : List Char := s.flatMap escChar

/-- The `_nl_to_br` helper of `highlight_text_html`: `\n` → `<br>`. -/
def nlToBr (s : List Char) : List Char :=
  s.flatMap fun c => if c = '\n' then strL "<br>" else [c]

/-- The `_PARENS` constant of `lib/memo/highlight.py`. -/
def parensChars : List Char :=
  ['(', ')', '（', '）', '［', '］', '【', '】', '[', ']', '\x7b', '\x7d']

/-- The character class of `_SEP_PATTERN` in `lib/memo/highlight.py`. -/
def sepChars : List Char :=
  [';', '；', ',', '，', '、', '。', '．', '.', ':', '：', '/', '／', '\\', '|', '｜']

/-- The straight and curly quotes stripped by `_extract_terms_logical`. -/
def quoteChars : List Char := ['"', '“', '”', '\'', '’']

/-- Replace every character of `cs` by a space (each `str.replace(ch, " ")` /
single-character-class `re.sub` step acts character-wise). -/
def replaceEach (cs : List Char) (s : List Char) : List Char :=
  s.map fun c => if c ∈ cs then ' ' else c

/-- Steps 1–4 of `_extract_terms_logical`: brackets, separator punctuation,
`&`/`|`, and quotes all become spaces. -/
def elClean (q : List Char) : List Char :=
  replaceEach quoteChars (replaceEach ['&', '|'] (replaceEach sepChars (replaceEach parensChars q)))

/-- Python `str.split()` (split on white-space runs, dropping empty pieces),
with an accumulator for the current piece (in reverse). -/
def pySplitGo : List Char → List Char → List (List Char)
  | [], acc => if acc = [] then [] else [acc.reverse]
  | c :: r, acc =>
    if pySpace c then
      if acc = [] then pySplitGo r [] else acc.reverse :: pySplitGo r []
    else pySplitGo r (c :: acc)

/-- Python `str.split()`. -/
def pySplit (s : List Char) : List (List Char) := pySplitGo s []

/-- The `_OP_WORDS` constant of `lib/memo/highlight.py`. -/
def opWords : List (List Char) :=
  [strL "and", strL "or", strL "not", strL "AND", strL "OR", strL "NOT",
   strL "&&", strL "||"]

/-- A character matched by the class `[\W_]` of the trimming regex in
`_extract_terms_logical`: not a word character, or an underscore. -/
def stripPunct (c : Char) : Bool := !pyIsAlnum c || c = '_'

/-- `re.sub(r"^[\W_]+|[\W_]+$", "", tok)`: trim the leading and trailing runs
of non-word characters. -/
def elStrip (tok : List Char) : List Char :=
  ((tok.dropWhile stripPunct).reverse.dropWhile stripPunct).reverse

/-- `re.fullmatch(r"[A-Za-z0-9]", cleaned)`: a single ASCII alphanumeric. -/
def isSingleAsciiAlnum (t : List Char) : Bool :=
  match t with
  | [c] => decide ((48 ≤ c.toNat ∧ c.toNat ≤ 57) ∨ (65 ≤ c.toNat ∧ c.toNat ≤ 90) ∨
      (97 ≤ c.toNat ∧ c.toNat ≤ 122))
  | _ => false

/-- The token loop of `_extract_terms_logical`, with the `skip_next` flag as
first argument: operator words are dropped (`not` additionally drops the next
token), `-word` is dropped, a bare `-` drops the next token, remaining tokens
are trimmed and dropped when empty or a single ASCII alphanumeric. -/
def elGo : Bool → List (List Char) → List (List Char)
  | _, [] => []
  | true, _ :: rest => elGo false rest
  | false, tok :: rest =>
    let low := tok.map pyLowerChar
    if low ∈ opWords then
      if low = strL "not" then elGo true rest else elGo false rest
    else if tok.head? = some '-' ∧ 1 < tok.length then elGo false rest
    else if tok = ['-'] then elGo true rest
    else
      let cleaned := elStrip tok
      if cleaned = [] then elGo false rest
      else if isSingleAsciiAlnum cleaned then elGo false rest
      else cleaned :: elGo false rest

/-- Order-preserving de-duplication (the final `seen` loop of
`_extract_terms_logical`). -/
def dedupGo (seen : List (List Char)) : List (List Char) → List (List Char)
  | [] => []
  | t :: r => if t ∈ seen then dedupGo seen r else t :: dedupGo (t :: seen) r

/-- `_extract_terms_logical` from `lib/memo/highlight.py`. -/
def extractTermsLogical (query : List Char) : List (List Char) :=
  let q := pyStrip query
  if q = [] then []
  else dedupGo [] (elGo false (pySplit (elClean q)))

/-- The scan implementing `re.findall(r'"([^\"]+)"', q)` together with
`re.sub(r'"[^\"]+"', " ", q)`: returns the captured phrases and the text with
each matched quoted span replaced by one space.  A quote with no non-empty
closing span is left in place and scanning resumes after it, matching the
regex engine's leftmost-match behavior.  Fuel bounds the iterations (each
consumes at least one character). -/
def findPhrasesGo : Nat → List Char → List (List Char) × List Char
  | 0, s => ([], s)
  | _ + 1, [] => ([], [])
  | f + 1, c :: rest =>
    if c = '"' then
      let span := rest.takeWhile (fun x => x ≠ '"')
      let rest2 := rest.dropWhile (fun x => x ≠ '"')
      match rest2 with
      | '"' :: r2 =>
        if span = [] then
          let r := findPhrasesGo f rest
          (r.1, c :: r.2)
        else
          let r := findPhrasesGo f r2
          (span :: r.1, ' ' :: r.2)
      | _ =>
        let r := findPhrasesGo f rest
        (r.1, c :: r.2)
    else
      let r := findPhrasesGo f rest
      (r.1, c :: r.2)

/-- `re.split(r"[\s,]+", ·)` with the surrounding emptiness filtering of
`_extract_terms_simple` (split on white space and commas, drop empties). -/
def splitSepGo : List Char → List Char → List (List Char)
  | [], acc => if acc = [] then [] else [acc.reverse]
  | c :: r, acc =>
    if pySpace c || c = ',' then
      if acc = [] then splitSepGo r [] else acc.reverse :: splitSepGo r []
    else splitSepGo r (c :: acc)

/-- `_extract_terms_simple` from `lib/memo/highlight.py`. -/
def extractTermsSimple (query : List Char) : List (List Char) :=
  let q := pyStrip query
  if q = [] then []
  else
    let fp := findPhrasesGo q.length q
    let words := splitSepGo (pyStrip fp.2) []
    let terms := (fp.1.map pyStrip).filter (fun p => p ≠ []) ++
      (words.map pyStrip).filter (fun w => w ≠ [])
    terms.filter fun t => decide (1 ≤ t.length ∧ t.length ≤ 50)

/-- Insertion into a list sorted by descending length
(for `sorted(·, key=len, reverse=True)`). -/
def insertLenDesc (t : List Char) : List (List Char) → List (List Char)
  | [] => [t]
  | u :: r => if t.length ≤ u.length then u :: insertLenDesc t r else t :: u :: r

/-- `sorted(·, key=len, reverse=True)`.  The source sorts the arbitrary
iteration order of a Python `set`; the highlight output does not depend on
the relative order of equal-length terms (the wrapped span is the matched
subject text), so the de-duplicated first-seen order is used as input. -/
def sortLenDesc : List (List Char) → List (List Char)
  | [] => []
  | t :: r => insertLenDesc t (sortLenDesc r)

/-- Case-insensitive literal match of term `t` against the start of `s`
(Python `re.IGNORECASE` over `re.escape`d literals, with the character-wise
lower-case model): returns the matched span of `s`. -/
def ciSpan : List Char → List Char → Option (List Char)
  | [], _ => some []
  | _ :: _, [] => none
  | a :: t, b :: s =>
    if pyLowerChar a = pyLowerChar b then
      match ciSpan t s with
      | some sp => some (b :: sp)
      | none => none
    else none

/-- The first alternative of the combined pattern matching at the current
position (Python alternation tries alternatives left to right).  Terms are
never empty when produced by the extractors; empty alternatives are ignored. -/
def firstSpan (terms : List (List Char)) (s : List Char) : Option (List Char) :=
  terms.findSome? fun t => if t = [] then none else ciSpan t s

/-- `pat.sub(_repl, esc)`: scan the escaped text left to right; at each
position, if some term matches, wrap the matched span in `<mark>…</mark>` and
resume after it, otherwise copy the character.  Fuel bounds the iterations
(each step consumes at least one character). -/
def subMarkF : Nat → List (List Char) → List Char → List Char
  | 0, _, s => s
  | _ + 1, _, [] => []
  | f + 1, terms, c :: rest =>
    match firstSpan terms (c :: rest) with
    | some sp =>
      strL "<mark>" ++ sp ++ strL "</mark>" ++ subMarkF f terms ((c :: rest).drop sp.length)
    | none => c :: subMarkF f terms rest

/-- `pat.sub(_repl, esc)` with sufficient fuel. -/
def subMark (terms : List (List Char)) (s : List Char) : List Char :=
  subMarkF s.length terms s

/-- The fixed `<div>` container of `highlight_text_html`. -/
def divOpen : List Char := strL "<div style=\"white-space:pre-wrap; line-height:1.5;\">"

/-- The closing tag of the container. -/
def divClose : List Char := strL "</div>"

/-- `highlight_text_html` from `lib/memo/highlight.py`. -/
def highlightTextHtml (text query : List Char) : List Char :=
  let q := pyStrip query
  let esc := htmlEscape text
  let terms0 := extractTermsLogical q
  let terms1 := if terms0 = [] then extractTermsSimple q else terms0
  if terms1 = [] then divOpen ++ nlToBr esc ++ divClose
  else
    let sorted := sortLenDesc (dedupGo [] terms1)
    divOpen ++ nlToBr (subMark sorted esc) ++ divClose

/-- Removal of the inserted highlight markup: delete every occurrence of
`<mark>` and `</mark>`. -/
def stripMarks : List Char → List Char
  | [] => []
  | c :: r =>
    if c = '<' then
      match r with
      | 'm' :: 'a' :: 'r' :: 'k' :: '>' :: r2 => stripMarks r2
      | '/' :: 'm' :: 'a' :: 'r' :: 'k' :: '>' :: r2 => stripMarks r2
      | r3 => c :: stripMarks r3
    else c :: stripMarks r
termination_by s => s.length
decreasing_by all_goals simp_arith

/-- Absence of two adjacent operator tokens (`AND`/`OR` next to `AND`/`OR`). -/
def noAdjOps : List Tok → Bool
  | a :: b :: r => !(isOpTok a && isOpTok b) && noAdjOps (b :: r)
  | _ => true

/-- C2: with `And` at precedence 2 and `Or` at precedence 1 and parentheses
overriding precedence, the query `"a OR b AND c"` matches the haystack `"a"`
(parsed as `a OR (b AND c)`), while `"(a OR b) AND c"` does not match it. -/
theorem c2_precedence_parens :
    evalRpn (compileQueryToRpn (strL "a OR b AND c")) (strL "a") = true ∧
    evalRpn (compileQueryToRpn (strL "(a OR b) AND c")) (strL "a") = false := by
  constructor <;> decide

/-- C4: the RPN evaluator is total and lenient — the empty program evaluates
to `false`; an `And`/`Or` popping from a stack with fewer than two operands
treats each missing operand as `false` (so `And` pushes `false` and `Or`
pushes the surviving operand); and a `Term` with empty text pushes `false`.
Totality holds by construction (`evalGo` is a total function). -/
theorem c4_eval_rpn_lenient :
    (∀ hay, evalRpn [] hay = false) ∧
    (∀ hay p, evalGo hay (Tok.and :: p) [] = evalGo hay p [false]) ∧
    (∀ hay p b, evalGo hay (Tok.and :: p) [b] = evalGo hay p [false]) ∧
    (∀ hay p, evalGo hay (Tok.or :: p) [] = evalGo hay p [false]) ∧
    (∀ hay p b, evalGo hay (Tok.or :: p) [b] = evalGo hay p [b]) ∧
    (∀ hay p st, evalGo hay (Tok.term [] :: p) st = evalGo hay p (false :: st)) := by
  refine ⟨fun hay => rfl, fun hay p => rfl, fun hay p b => ?_, fun hay p => rfl,
    fun hay p b => ?_, fun hay p st => rfl⟩
  · show evalGo hay p [false && b] = evalGo hay p [false]
    rw [Bool.false_and]
  · show evalGo hay p [false || b] = evalGo hay p [b]
    rw [Bool.false_or]

/-- C7: the logical term extractor excludes negated words from the highlight
term list — `extract_terms_logical("山田 -太郎") = ["山田"]` and
`extract_terms_logical("山田 NOT 太郎") = ["山田"]`; a `-word` token is itself
dropped (`"-山田 太郎"` keeps only `"太郎"`) and a bare `-` (like `NOT`) drops
the following token (`"- 山田 太郎"` keeps only `"太郎"`). -/
theorem c7_negation_excluded :
    extractTermsLogical (strL "山田 -太郎") = [strL "山田"] ∧
    extractTermsLogical (strL "山田 NOT 太郎") = [strL "山田"] ∧
    extractTermsLogical (strL "-山田 太郎") = [strL "太郎"] ∧
    extractTermsLogical (strL "- 山田 太郎") = [strL "太郎"] := by
  refine ⟨?_, ?_, ?_, ?_⟩ <;> decide

/-- C8 counterexample: `_extract_terms_logical` does not NFKC-normalize its
input, so it is not invariant under NFKC — the full-width operator word
`ＡＮＤ` is kept as a term, while on the NFKC-folded query the ASCII `AND` is
dropped. -/
theorem c8_counterexample :
    extractTermsLogical (strL "山田 ＡＮＤ 太郎") ≠
      extractTermsLogical (nfkc (strL "山田 ＡＮＤ 太郎")) := by
  decide

/-- C8 amended: the logical extractor performs no NFKC normalization; it
handles bracket variants through an explicit replacement list instead, so an
NFKC compatibility variant of an operator word is kept as a term rather than
dropped: `extract_terms_logical("山田 ＡＮＤ 太郎") = ["山田", "ＡＮＤ", "太郎"]`
whereas `extract_terms_logical("山田 AND 太郎") = ["山田", "太郎"]`, and the
full-width brackets in `"（山田） AND 太郎"` are stripped without NFKC. -/
theorem c8_amended_no_nfkc :
    extractTermsLogical (strL "山田 ＡＮＤ 太郎") =
      [strL "山田", strL "ＡＮＤ", strL "太郎"] ∧
    extractTermsLogical (strL "山田 AND 太郎") = [strL "山田", strL "太郎"] ∧
    extractTermsLogical (strL "（山田） AND 太郎") = [strL "山田", strL "太郎"] := by
  refine ⟨?_, ?_, ?_⟩ <;> decide

/-- C6 counterexample: for the tokenizer output of the query `"and or"`, the
implicit-AND inserter's output contains two consecutive operator tokens. -/
theorem c6_counterexample :
    noAdjOps (insertImplicitAnd (tokenize (strL "and or"))) = false := by
  decide

/-- A token that ends a value is never an operator. -/
theorem isValueEnd_not_op {t : Tok} (h : isValueEnd t = true) : isOpTok t = false := by
  cases t <;> simp_all [isValueEnd, isOpTok]

/-- A token that starts a value is never an operator. -/
theorem isValueStart_not_op {t : Tok} (h : isValueStart t = true) : isOpTok t = false := by
  cases t <;> simp_all [isValueStart, isOpTok]

/-- The inserter loop preserves absence of adjacent operators. -/
theorem noAdjOps_iiaGo :
    ∀ (rest : List Tok) (prev : Tok), noAdjOps (prev :: rest) = true →
      noAdjOps (prev :: iiaGo prev rest) = true := by
  intro rest
  induction rest with
  | nil => intro prev _; rfl
  | cons t r ih =>
    intro prev h
    have h1 : (!(isOpTok prev && isOpTok t)) = true := by
      simp only [noAdjOps, Bool.and_eq_true] at h
      exact h.1
    have h2 : noAdjOps (t :: r) = true := by
      simp only [noAdjOps, Bool.and_eq_true] at h
      exact h.2
    have h3 := ih t h2
    by_cases hins : (isValueEnd prev && isValueStart t) = true
    · have hpe : isValueEnd prev = true := (Bool.and_eq_true _ _).mp hins |>.1
      have hts : isValueStart t = true := (Bool.and_eq_true _ _).mp hins |>.2
      have e1 : isOpTok prev = false := isValueEnd_not_op hpe
      have e2 : isOpTok t = false := isValueStart_not_op hts
      have e3 : isOpTok Tok.and = true := rfl
      simp only [iiaGo, if_pos hins]
      simp only [noAdjOps, e1, e2, e3, Bool.false_and, Bool.and_false,
        Bool.not_false, Bool.true_and]
      exact h3
    · simp only [iiaGo, if_neg hins]
      simp only [noAdjOps, Bool.and_eq_true]
      exact ⟨h1, h3⟩

/-- C6 amended: the implicit-AND inserter adds an `And` exactly between a
value-ending token (`Term`/`RParen`) and a following value-starting token
(`Term`/`LParen`), and it never creates a new adjacent operator pair — if the
input token stream has no two consecutive operator tokens, neither has the
output.  (The tokenizer can produce adjacent operators, e.g. for the query
`"and or"`, and the inserter passes them through.) -/
theorem c6_amended_inserter :
    (∀ prev t rest, (isValueEnd prev && isValueStart t) = true →
      iiaGo prev (t :: rest) = Tok.and :: t :: iiaGo t rest) ∧
    (∀ prev t rest, (isValueEnd prev && isValueStart t) = false →
      iiaGo prev (t :: rest) = t :: iiaGo t rest) ∧
    (∀ toks, noAdjOps toks = true → noAdjOps (insertImplicitAnd toks) = true) := by
  refine ⟨?_, ?_, ?_⟩
  · intro prev t rest h
    simp only [iiaGo, if_pos h]
  · intro prev t rest h
    simp only [iiaGo, h]
    simp
  · intro toks h
    cases toks with
    | nil => rfl
    | cons t rest => exact noAdjOps_iiaGo rest t h

/-- C6 amended witness: the inserter applied to `TERM OR TERM` keeps the
stream free of adjacent operators, and inserts `And` between two terms. -/
theorem c6_amended_inserter_witness :
    noAdjOps (insertImplicitAnd [Tok.term (strL "a"), Tok.or, Tok.term (strL "b")]) = true ∧
    iiaGo (Tok.term (strL "a")) [Tok.term (strL "b")] =
      [Tok.and, Tok.term (strL "b")] := by
  constructor
  · exact c6_amended_inserter.2.2 [Tok.term (strL "a"), Tok.or, Tok.term (strL "b")] (by decide)
  · exact c6_amended_inserter.1 (Tok.term (strL "a")) (Tok.term (strL "b")) [] (by decide)

/-- Skipping an unreadable candidate leaves the scan unchanged. -/
theorem searchGo_skip_none (rpn : List Tok) (limit : Int) :
    ∀ (pre hits post : List Candidate) (i : Nat),
      searchGo rpn limit hits (pre ++ ⟨i, none⟩ :: post) =
        searchGo rpn limit hits (pre ++ post) := by
  intro pre
  induction pre with
  | nil => intro hits post i; simp [searchGo]
  | cons m pr ih =>
    intro hits post i
    simp only [List.cons_append, searchGo]
    cases hd : m.doc with
    | none => exact ih hits post i
    | some d =>
      by_cases hev : evalRpn rpn (buildHay d) = true
      · simp only [hev, if_true]
        by_cases hlim : ((hits.length : Int) + 1) ≥ limit
        · simp only [if_pos hlim]
        · simp only [if_neg hlim]
          exact ih (hits ++ [m]) post i
      · simp only [Bool.not_eq_true] at hev
        simp only [hev]
        simp only [Bool.false_eq_true, if_false]
        exact ih hits post i

/-- Every candidate the scan loop returns (beyond those already accumulated)
carries a readable document. -/
theorem searchGo_all_some (rpn : List Tok) (limit : Int) :
    ∀ (cands hits : List Candidate),
      hits.all (fun c => c.doc.isSome) = true →
      (searchGo rpn limit hits cands).all (fun c => c.doc.isSome) = true := by
  intro cands
  induction cands with
  | nil => intro hits h; exact h
  | cons m rest ih =>
    intro hits h
    simp only [searchGo]
    cases hd : m.doc with
    | none => exact ih hits h
    | some d =>
      have hm : (hits ++ [m]).all (fun c => c.doc.isSome) = true := by
        rw [List.all_append, h]
        simp [List.all_cons, hd]
      by_cases hev : evalRpn rpn (buildHay d) = true
      · simp only [hev, if_true]
        by_cases hlim : ((hits.length : Int) + 1) ≥ limit
        · simp only [if_pos hlim]
          exact hm
        · simp only [if_neg hlim]
          exact ih (hits ++ [m]) hm
      · simp only [Bool.not_eq_true] at hev
        simp only [hev, Bool.false_eq_true, if_false]
        exact ih hits h

/-- C10: a candidate note whose backing JSON file is missing, unreadable, or
not a JSON object (modelled as `doc = none`) is silently skipped by plain
search — removing it from the candidate list leaves the result unchanged
(so it never appears in the output and the remaining candidates are still
processed), and every returned candidate carries a readable document.
No error propagates: `searchPlain` is a total function by construction. -/
theorem c10_unreadable_skipped :
    (∀ (pre post : List Candidate) (i : Nat) (query : List Char) (limit : Int),
      searchPlain (pre ++ ⟨i, none⟩ :: post) query limit =
        searchPlain (pre ++ post) query limit) ∧
    (∀ (cands : List Candidate) (query : List Char) (limit : Int),
      (searchPlain cands query limit).all (fun c => c.doc.isSome) = true) := by
  constructor
  · intro pre post i query limit
    unfold searchPlain
    by_cases h1 : pyStrip query = []
    · simp only [h1, if_true]
    · simp only [h1, if_false]
      by_cases h2 : compileQueryToRpn (pyStrip query) = []
      · simp only [h2, if_true]
      · simp only [h2, if_false]
        exact searchGo_skip_none _ limit pre [] post i
  · intro cands query limit
    unfold searchPlain
    by_cases h1 : pyStrip query = []
    · simp only [h1, if_true]; rfl
    · simp only [h1, if_false]
      by_cases h2 : compileQueryToRpn (pyStrip query) = []
      · simp only [h2, if_true]; rfl
      · simp only [h2, if_false]
        exact searchGo_all_some _ limit cands [] rfl

/-- The tokenizer never emits a `Term` with empty text (every emitting branch
is guarded by a non-emptiness test). -/
theorem tokGoF_term_ne :
    ∀ (f : Nat) (s t : List Char), Tok.term t ∈ tokGoF f s → t ≠ [] := by
  intro f
  induction f with
  | zero => intro s t h; simp [tokGoF] at h
  | succ f ih =>
    intro s t h
    match s with
    | [] => simp [tokGoF] at h
    | c :: rest =>
      simp only [tokGoF] at h
      repeat' split at h
      all_goals try exact ih _ _ h
      all_goals rcases List.mem_cons.mp h with h1 | h1
      all_goals try exact ih _ _ h1
      all_goals simp_all

/-- Lifting of `tokGoF_term_ne` to `tokenize`. -/
theorem tokenize_term_ne (q t : List Char) (h : Tok.term t ∈ tokenize q) :
    t ≠ [] := by
  unfold tokenize at h
  by_cases h0 : pyStrip (nfkc q) = []
  · simp [h0] at h
  · simp only [h0, if_false] at h
    exact tokGoF_term_ne _ _ _ h

/-- The executable substring test agrees with `List.IsInfix`. -/
theorem strIn_eq_true_iff (t hay : List Char) : strIn t hay = true ↔ t <:+: hay := by
  induction hay with
  | nil =>
    simp only [strIn, List.isEmpty_iff]
    constructor
    · rintro rfl
      exact List.nil_infix
    · intro h
      exact List.sublist_nil.mp h.sublist
  | cons c tl ih =>
    simp only [strIn, Bool.or_eq_true, List.isPrefixOf_iff_prefix, ih,
      List.infix_cons_iff]

/-- C1: for every query that tokenizes to a single search term (one bareword
that is not `and`/`or`, or one quoted phrase — both carrying the normalized
term text `t`), the plain-search pipeline (tokenize, implicit-AND insertion,
shunting-yard, RPN evaluation) matches a haystack exactly when `t` is a
substring of the haystack. -/
theorem c1_single_term_substring (q hay t : List Char)
    (h : tokenize q = [Tok.term t]) :
    (evalRpn (compileQueryToRpn q) hay = true ↔ t <:+: hay) := by
  have ht : t ≠ [] := tokenize_term_ne q t (by rw [h]; exact List.mem_singleton.mpr rfl)
  have hte : t.isEmpty = false := by
    cases t with
    | nil => exact absurd rfl ht
    | cons a r => rfl
  unfold compileQueryToRpn
  rw [h]
  have e1 : toRpn (insertImplicitAnd [Tok.term t]) = [Tok.term t] := rfl
  rw [e1]
  show evalGo hay [Tok.term t] [] = true ↔ _
  simp only [evalGo, termVal, List.headD, hte, Bool.not_false, Bool.true_and]
  exact strIn_eq_true_iff t hay

/-- C1 witness: the single-bareword query `"abc"` matches the haystack
`"zabcq"`. -/
theorem c1_single_term_substring_witness :
    evalRpn (compileQueryToRpn (strL "abc")) (strL "zabcq") = true := by
  have h : tokenize (strL "abc") = [Tok.term (strL "abc")] := by decide
  exact (c1_single_term_substring (strL "abc") (strL "zabcq") (strL "abc") h).mpr
    ⟨strL "z", strL "q", by decide⟩

/-- While fewer hits than `limit` have been accumulated, the scan loop
returns the accumulated hits followed by the first `limit - |hits|` matching
candidates, in candidate order. -/
theorem searchGo_characterization (rpn : List Tok) (limit : Int) :
    ∀ (cands hits : List Candidate), (hits.length : Int) < limit →
      searchGo rpn limit hits cands =
        hits ++ List.take (limit - hits.length).toNat (cands.filter (matchCand rpn)) := by
  intro cands
  induction cands with
  | nil => intro hits h; simp [searchGo]
  | cons m rest ih =>
    intro hits h
    simp only [searchGo, List.filter_cons]
    cases hd : m.doc with
    | none =>
      have hm : matchCand rpn m = false := by simp [matchCand, hd]
      rw [hm]
      simp only [Bool.false_eq_true, if_false]
      exact ih hits h
    | some d =>
      by_cases hev : evalRpn rpn (buildHay d) = true
      · have hm : matchCand rpn m = true := by simp [matchCand, hd, hev]
        rw [hm]
        simp only [hev, if_true]
        by_cases hlim : ((hits.length : Int) + 1) ≥ limit
        · simp only [if_pos hlim]
          have ht1 : (limit - hits.length).toNat = 1 := by omega
          rw [ht1, List.take_succ_cons, List.take_zero]
        · simp only [if_neg hlim]
          rw [ih (hits ++ [m]) (by simp; omega)]
          have hlen : (((hits ++ [m]).length : Nat) : Int) = (hits.length : Int) + 1 := by
            simp
          rw [hlen]
          have h2 : (limit - hits.length).toNat = (limit - ((hits.length : Int) + 1)).toNat + 1 := by
            omega
          rw [h2, List.take_succ_cons, List.append_assoc]
          rfl
      · have hm : matchCand rpn m = false := by simp [matchCand, hd, hev]
        rw [hm]
        have hev' : evalRpn rpn (buildHay d) = false := by
          simpa using hev
        simp only [hev', Bool.false_eq_true, if_false]
        exact ih hits h

/-- For a positive limit and a query that survives the emptiness guards,
plain search returns the first `limit` matching candidates in order. -/
theorem searchPlain_eq_take (query : List Char) (cands : List Candidate)
    (limit : Int) (h1 : pyStrip query ≠ [])
    (h2 : compileQueryToRpn (pyStrip query) ≠ []) (h : 0 < limit) :
    searchPlain cands query limit =
      List.take limit.toNat
        (cands.filter (matchCand (compileQueryToRpn (pyStrip query)))) := by
  unfold searchPlain
  simp only [h1, if_false, h2]
  have := searchGo_characterization (compileQueryToRpn (pyStrip query)) limit cands []
    (by simp; omega)
  simpa using this

/-- C9 counterexample: with `limit = 0` and a single matching candidate, the
result has one element, exceeding the limit (the loop appends a hit before
checking the bound). -/
theorem c9_counterexample :
    ¬ ((searchPlain [⟨1, some ⟨strL "a", [], []⟩⟩] (strL "a") 0).length ≤ 0) := by
  decide

/-- The empty RPN program matches no candidate. -/
theorem matchCand_nil (c : Candidate) : matchCand [] c = false := by
  unfold matchCand
  cases c.doc with
  | none => rfl
  | some d => rfl

/-- An empty query compiles to the empty RPN program. -/
theorem compileQueryToRpn_nil : compileQueryToRpn [] = [] := rfl

/-- With a non-positive limit, the scan still returns the first matching
candidate: the hit is appended before the bound is checked. -/
theorem searchGo_nonpos (rpn : List Tok) (limit : Int) (hl : limit ≤ 0) :
    ∀ cands : List Candidate,
      searchGo rpn limit [] cands = List.take 1 (cands.filter (matchCand rpn)) := by
  intro cands
  induction cands with
  | nil => simp [searchGo]
  | cons m rest ih =>
    simp only [searchGo, List.filter_cons]
    cases hd : m.doc with
    | none =>
      have hm : matchCand rpn m = false := by simp [matchCand, hd]
      rw [hm]
      simp only [Bool.false_eq_true, if_false]
      exact ih
    | some d =>
      by_cases hev : evalRpn rpn (buildHay d) = true
      · have hm : matchCand rpn m = true := by simp [matchCand, hd, hev]
        rw [hm]
        simp only [hev, if_true]
        rw [if_pos (by simp; omega)]
        simp
      · have hm : matchCand rpn m = false := by simp [matchCand, hd, hev]
        rw [hm]
        have hev' : evalRpn rpn (buildHay d) = false := by
          simpa using hev
        simp only [hev', Bool.false_eq_true, if_false]
        exact ih

/-- C9 amended: for every raw query, candidate sequence, and limit of at
least 1, plain search returns exactly the first `limit` **matching**
candidates in the caller's iteration order; consequently the returned
identifiers form a subsequence of the caller's iteration order, every
returned candidate matches the compiled query, at most `limit` candidates
are returned, and the scan stops consuming candidates as soon as `limit`
matches have been collected (appending further candidates cannot change the
result).  For `limit ≤ 0` the loop still returns the first matching
candidate, because a hit is appended before the bound is checked. -/
theorem c9_ordered_limited (query : List Char) (cands : List Candidate)
    (limit : Int) :
    (1 ≤ limit →
      searchPlain cands query limit =
        List.take limit.toNat
          (cands.filter (matchCand (compileQueryToRpn (pyStrip query)))) ∧
      ((searchPlain cands query limit).map Candidate.noteId).Sublist
        (cands.map Candidate.noteId) ∧
      (searchPlain cands query limit).all
        (matchCand (compileQueryToRpn (pyStrip query))) = true ∧
      ((searchPlain cands query limit).length : Int) ≤ limit ∧
      (∀ pre post : List Candidate,
        limit ≤ ((pre.filter (matchCand (compileQueryToRpn (pyStrip query)))).length : Int) →
        searchPlain (pre ++ post) query limit = searchPlain pre query limit)) ∧
    (limit ≤ 0 →
      searchPlain cands query limit =
        List.take 1 (cands.filter (matchCand (compileQueryToRpn (pyStrip query))))) := by
  by_cases h1 : pyStrip query = []
  · have hrpn : compileQueryToRpn (pyStrip query) = [] := by rw [h1]; rfl
    have hfe : ∀ l : List Candidate,
        l.filter (matchCand (compileQueryToRpn (pyStrip query))) = [] := by
      intro l
      rw [hrpn]
      exact List.filter_eq_nil_iff.mpr fun c _ => by simp [matchCand_nil]
    have hsp : ∀ (l : List Candidate) (lim : Int), searchPlain l query lim = [] := by
      intro l lim
      simp [searchPlain, h1]
    constructor
    · intro h
      refine ⟨?_, ?_, ?_, ?_, ?_⟩
      · rw [hsp, hfe]
        simp
      · rw [hsp]
        simp
      · rw [hsp]
        rfl
      · rw [hsp]
        simp
        omega
      · intro pre post _
        rw [hsp, hsp]
    · intro _
      rw [hsp, hfe]
      simp
  · by_cases h2 : compileQueryToRpn (pyStrip query) = []
    · have hfe : ∀ l : List Candidate,
          l.filter (matchCand (compileQueryToRpn (pyStrip query))) = [] := by
        intro l
        rw [h2]
        exact List.filter_eq_nil_iff.mpr fun c _ => by simp [matchCand_nil]
      have hsp : ∀ (l : List Candidate) (lim : Int), searchPlain l query lim = [] := by
        intro l lim
        simp [searchPlain, h1, h2]
      constructor
      · intro h
        refine ⟨?_, ?_, ?_, ?_, ?_⟩
        · rw [hsp, hfe]
          simp
        · rw [hsp]
          simp
        · rw [hsp]
          rfl
        · rw [hsp]
          simp
          omega
        · intro pre post _
          rw [hsp, hsp]
      · intro _
        rw [hsp, hfe]
        simp
    · constructor
      · intro h
        have hpos : 0 < limit := by omega
        have hc := searchPlain_eq_take query cands limit h1 h2 hpos
        refine ⟨hc, ?_, ?_, ?_, ?_⟩
        · rw [hc]
          exact ((List.take_sublist _ _).trans (List.filter_sublist _)).map _
        · rw [hc]
          rw [List.all_eq_true]
          intro c hcmem
          exact List.of_mem_filter (List.mem_of_mem_take hcmem)
        · rw [hc]
          have := List.length_take_le limit.toNat
            (cands.filter (matchCand (compileQueryToRpn (pyStrip query))))
          omega
        · intro pre post hfull
          rw [searchPlain_eq_take query (pre ++ post) limit h1 h2 hpos,
            searchPlain_eq_take query pre limit h1 h2 hpos,
            List.filter_append]
          exact List.take_append_of_le_length (by omega)
      · intro hle
        unfold searchPlain
        simp only [h1, if_false, h2]
        exact searchGo_nonpos (compileQueryToRpn (pyStrip query)) limit hle cands

/-- C9 witness: with limit 1, the search result is exactly the first
matching candidate of the scan order. -/
theorem c9_ordered_limited_witness :
    searchPlain [⟨1, some ⟨strL "a", [], []⟩⟩, ⟨2, some ⟨strL "b", [], []⟩⟩]
      (strL "a") 1 =
      List.take (1 : Int).toNat
        (([⟨1, some ⟨strL "a", [], []⟩⟩, ⟨2, some ⟨strL "b", [], []⟩⟩] :
          List Candidate).filter
          (matchCand (compileQueryToRpn (pyStrip (strL "a"))))) :=
  ((c9_ordered_limited (strL "a")
    [⟨1, some ⟨strL "a", [], []⟩⟩, ⟨2, some ⟨strL "b", [], []⟩⟩] 1).1
    (by decide)).1

/-- A well-formed bareword token for the FTS prefixifier: non-empty, with no
white space and no double quote. -/
def bareTokWf (t : List Char) : Prop :=
  t ≠ [] ∧ ∀ c ∈ t, pySpace c = false ∧ c ≠ '"'

/-- A well-formed FTS token: a bareword or a quoted phrase. -/
def ftsTokWf (t : List Char) : Prop :=
  bareTokWf t ∨ ∃ p, t = '"' :: p ++ ['"'] ∧ '"' ∉ p

/-- The per-token output of the prefixifier: quoted phrases pass through,
barewords go through `flush`. -/
def ftsEmit (t : List Char) : Option (List Char) :=
  if t.head? = some '"' then some t else flushTok t

/-- Scanning a quote-free, space-free tail accumulates it into the pending
token and flushes at end of input. -/
theorem ftsGo_bare_end :
    ∀ (s : List Char) (out : List (List Char)) (token : List Char),
      (∀ c ∈ s, pySpace c = false ∧ c ≠ '"') →
      ftsGo s out token false = out ++ (flushTok (token ++ s)).toList := by
  intro s
  induction s with
  | nil => intro out token _; simp [ftsGo]
  | cons c r ih =>
    intro out token h
    have hc := h c (List.mem_cons_self c r)
    have hr : ∀ x ∈ r, pySpace x = false ∧ x ≠ '"' :=
      fun x hx => h x (List.mem_cons_of_mem c hx)
    simp only [ftsGo, if_neg hc.2, hc.1, Bool.false_eq_true, if_false]
    rw [ih out (token ++ [c]) hr]
    simp

/-- Scanning inside a quote accumulates up to the closing quote and emits the
whole quoted token verbatim. -/
theorem ftsGo_quote :
    ∀ (p : List Char), '"' ∉ p →
      ∀ (s : List Char) (out : List (List Char)) (token : List Char),
      ftsGo (p ++ '"' :: s) out token true =
        ftsGo s (out ++ [token ++ p ++ ['"']]) [] false := by
  intro p
  induction p with
  | nil =>
    intro _ s out token
    simp [ftsGo]
  | cons c p' ih =>
    intro hp s out token
    have hc : c ≠ '"' := fun e => hp (e ▸ List.mem_cons_self c p')
    have hp' : '"' ∉ p' := fun e => hp (List.mem_cons_of_mem c e)
    simp only [List.cons_append, ftsGo, if_neg hc, if_true]
    simp only [List.append_eq]
    rw [ih hp' s out (token ++ [c])]
    simp

/-- Scanning a quote-free, space-free token followed by a space flushes the
token and resumes with an empty pending token. -/
theorem ftsGo_bare_space :
    ∀ (t : List Char), (∀ c ∈ t, pySpace c = false ∧ c ≠ '"') →
      ∀ (s : List Char) (out : List (List Char)) (token : List Char),
      ftsGo (t ++ ' ' :: s) out token false =
        ftsGo s (out ++ (flushTok (token ++ t)).toList) [] false := by
  intro t
  induction t with
  | nil =>
    intro _ s out token
    simp [ftsGo, pySpace]
  | cons c r ih =>
    intro h s out token
    have hc := h c (List.mem_cons_self c r)
    have hr : ∀ x ∈ r, pySpace x = false ∧ x ≠ '"' :=
      fun x hx => h x (List.mem_cons_of_mem c hx)
    simp only [List.cons_append, ftsGo, if_neg hc.2, hc.1, Bool.false_eq_true, if_false]
    simp only [List.append_eq]
    rw [ih hr s out (token ++ [c])]
    simp

/-- `filterMap` on a cons, phrased with `Option.toList`. -/
theorem filterMap_cons_toList {α β : Type} (f : α → Option β) (a : α) (l : List α) :
    List.filterMap f (a :: l) = (f a).toList ++ List.filterMap f l := by
  cases h : f a <;> simp [List.filterMap_cons, h]


/-- Opening quote with empty pending token: nothing is flushed. -/
theorem ftsGo_open_quote (rest : List Char) (out : List (List Char)) :
    ftsGo ('"' :: rest) out [] false = ftsGo rest out ['"'] true := by
  simp [ftsGo, pyStrip]

/-- A space with empty pending token flushes nothing. -/
theorem ftsGo_space_empty (s : List Char) (out : List (List Char)) :
    ftsGo (' ' :: s) out [] false = ftsGo s out [] false := by
  have h1 : (' ' : Char) ≠ '"' := by decide
  have h2 : pySpace ' ' = true := rfl
  have h3 : flushTok ([] : List Char) = none := rfl
  simp only [ftsGo, if_neg h1, h2, if_true, h3, Option.toList_none, List.append_nil]
  simp

/-- End of input with empty pending token emits nothing further. -/
theorem ftsGo_nil_empty (out : List (List Char)) :
    ftsGo [] out [] false = out := by
  have h3 : flushTok ([] : List Char) = none := rfl
  simp [ftsGo, h3]

/-- A well-formed bareword is emitted through `flush`. -/
theorem ftsEmit_bare (t : List Char) (hb : bareTokWf t) : ftsEmit t = flushTok t := by
  unfold ftsEmit
  cases ht : t with
  | nil => exact absurd ht hb.1
  | cons c r =>
    have := (hb.2 c (by rw [ht]; exact List.mem_cons_self c r)).2
    simp [this]

/-- A quoted token is emitted verbatim. -/
theorem ftsEmit_quoted (p : List Char) :
    ftsEmit ('"' :: (p ++ ['"'])) = some ('"' :: (p ++ ['"'])) := by
  simp [ftsEmit]

/-- The scanner processes a space-joined list of well-formed tokens
token-wise. -/
theorem ftsGo_join :
    ∀ (toks : List (List Char)), toks ≠ [] → (∀ t ∈ toks, ftsTokWf t) →
      ∀ (out : List (List Char)),
      ftsGo (joinSpace toks) out [] false = out ++ toks.filterMap ftsEmit := by
  intro toks
  induction toks with
  | nil => intro h; exact absurd rfl h
  | cons t ts ih =>
    intro _ hwf out
    have hwt : ftsTokWf t := hwf t (List.mem_cons_self t ts)
    cases ts with
    | nil =>
      have hj : joinSpace [t] = t := rfl
      rw [hj]
      cases hwt with
      | inl hb =>
        rw [ftsGo_bare_end t out [] hb.2]
        simp [filterMap_cons_toList, ftsEmit_bare t hb]
      | inr hq =>
        obtain ⟨p, rfl, hp⟩ := hq
        show ftsGo ('"' :: (p ++ ['"'])) out [] false = _
        rw [ftsGo_open_quote]
        rw [ftsGo_quote p hp [] out ['"']]
        rw [ftsGo_nil_empty]
        simp [filterMap_cons_toList, ftsEmit_quoted p]
    | cons t₂ r =>
      have hj : joinSpace (t :: t₂ :: r) = t ++ ' ' :: joinSpace (t₂ :: r) := rfl
      rw [hj]
      have hr : ∀ x ∈ t₂ :: r, ftsTokWf x :=
        fun x hx => hwf x (List.mem_cons_of_mem t hx)
      cases hwt with
      | inl hb =>
        rw [ftsGo_bare_space t hb.2 (joinSpace (t₂ :: r)) out []]
        rw [ih (by simp) hr]
        simp [filterMap_cons_toList, ftsEmit_bare t hb]
      | inr hq =>
        obtain ⟨p, rfl, hp⟩ := hq
        have hq2 : ('"' :: p ++ ['"']) ++ ' ' :: joinSpace (t₂ :: r) =
            '"' :: (p ++ '"' :: (' ' :: joinSpace (t₂ :: r))) := by simp
        rw [hq2]
        rw [ftsGo_open_quote]
        rw [ftsGo_quote p hp (' ' :: joinSpace (t₂ :: r)) out ['"']]
        rw [ftsGo_space_empty]
        rw [ih (by simp) hr]
        simp [filterMap_cons_toList, ftsEmit_quoted p]

/-- A string whose first and last characters are not white space is unchanged
by `str.strip()`. -/
theorem pyStrip_eq_self (s : List Char)
    (h1 : ∀ hd, s.head? = some hd → pySpace hd = false)
    (h2 : ∀ l, s.getLast? = some l → pySpace l = false) : pyStrip s = s := by
  unfold pyStrip
  have d1 : s.dropWhile pySpace = s := by
    cases s with
    | nil => rfl
    | cons c r =>
      rw [List.dropWhile_cons, h1 c rfl]
      simp
  rw [d1]
  have d2 : s.reverse.dropWhile pySpace = s.reverse := by
    cases hr : s.reverse with
    | nil => rfl
    | cons c r =>
      have hl : s.getLast? = some c := by
        rw [← List.head?_reverse, hr]
        rfl
      rw [List.dropWhile_cons, h2 c hl]
      simp
  rw [d2, List.reverse_reverse]

/-- A well-formed FTS token is non-empty. -/
theorem ftsTokWf_ne (t : List Char) (h : ftsTokWf t) : t ≠ [] := by
  cases h with
  | inl hb => exact hb.1
  | inr hq => obtain ⟨p, rfl, -⟩ := hq; simp

/-- The first character of a well-formed FTS token is not white space. -/
theorem ftsTokWf_head_not_space (t : List Char) (h : ftsTokWf t) :
    ∀ hd, t.head? = some hd → pySpace hd = false := by
  intro hd hh
  cases h with
  | inl hb => exact (hb.2 hd (List.mem_of_mem_head? hh)).1
  | inr hq =>
    obtain ⟨p, rfl, -⟩ := hq
    simp only [List.cons_append, List.head?_cons, Option.some.injEq] at hh
    rw [← hh]
    decide

/-- The last character of a well-formed FTS token is not white space. -/
theorem ftsTokWf_last_not_space (t : List Char) (h : ftsTokWf t) :
    ∀ l, t.getLast? = some l → pySpace l = false := by
  intro l hl
  cases h with
  | inl hb => exact (hb.2 l (List.mem_of_mem_getLast? hl)).1
  | inr hq =>
    obtain ⟨p, rfl, -⟩ := hq
    rw [List.getLast?_concat] at hl
    cases hl
    decide

/-- A space-joined token list with a non-empty first token is non-empty. -/
theorem joinSpace_ne_nil (t : List Char) (ts : List (List Char)) (ht : t ≠ []) :
    joinSpace (t :: ts) ≠ [] := by
  cases ts with
  | nil => exact ht
  | cons t₂ r =>
    show t ++ ' ' :: joinSpace (t₂ :: r) ≠ []
    simp

/-- The head of a space-joined token list is the head of its first token. -/
theorem joinSpace_head? (t : List Char) (ts : List (List Char)) (ht : t ≠ []) :
    (joinSpace (t :: ts)).head? = t.head? := by
  cases ts with
  | nil => rfl
  | cons t₂ r =>
    show (t ++ ' ' :: joinSpace (t₂ :: r)).head? = t.head?
    cases t with
    | nil => exact absurd rfl ht
    | cons c u => rfl

/-- The last character of a space-joined token list is the last character of
one of its tokens. -/
theorem joinSpace_getLast? :
    ∀ (ts : List (List Char)) (t : List Char), (∀ x ∈ t :: ts, x ≠ []) →
      ∃ u ∈ t :: ts, (joinSpace (t :: ts)).getLast? = u.getLast? := by
  intro ts
  induction ts with
  | nil => intro t _; exact ⟨t, List.mem_cons_self t [], rfl⟩
  | cons t₂ r ih =>
    intro t h
    have ht₂ : t₂ ≠ [] := h t₂ (List.mem_cons_of_mem t (List.mem_cons_self t₂ r))
    obtain ⟨u, hu, he⟩ := ih t₂ fun x hx => h x (List.mem_cons_of_mem t hx)
    refine ⟨u, List.mem_cons_of_mem t hu, ?_⟩
    show (t ++ ' ' :: joinSpace (t₂ :: r)).getLast? = _
    rw [List.getLast?_append_of_ne_nil t (by simp)]
    have hj : joinSpace (t₂ :: r) ≠ [] := joinSpace_ne_nil t₂ r ht₂
    have : (' ' :: joinSpace (t₂ :: r)) = [' '] ++ joinSpace (t₂ :: r) := rfl
    rw [this, List.getLast?_append_of_ne_nil [' '] hj]
    exact he

/-- The prefixifier on a single well-formed bareword token follows the
`flush` rules. -/
theorem prefixifyQuery_bare (t : List Char) (hb : bareTokWf t) :
    prefixifyQuery t =
      if t.map pyUpperChar ∈ kwUpper then t
      else if t.getLast? = some '*' then t
      else if t.all (fun c => !pyIsAlnum c) then t
      else t ++ ['*'] := by
  have hstrip : pyStrip t = t :=
    pyStrip_eq_self t
      (fun hd hh => (hb.2 hd (List.mem_of_mem_head? hh)).1)
      (fun l hl => (hb.2 l (List.mem_of_mem_getLast? hl)).1)
  simp only [prefixifyQuery, hstrip, if_neg hb.1]
  rw [ftsGo_bare_end t [] [] hb.2]
  simp only [List.nil_append]
  unfold flushTok
  simp only [hstrip, if_neg hb.1]
  by_cases h1 : t.map pyUpperChar ∈ kwUpper
  · simp only [if_pos h1]
    rfl
  · simp only [if_neg h1]
    by_cases h2 : t.getLast? = some '*'
    · simp only [if_pos h2]
      rfl
    · simp only [if_neg h2]
      by_cases h3 : t.all (fun c => !pyIsAlnum c) = true

      · simp only [if_pos h3]
        rfl
      · simp only [if_neg h3]
        rfl

/-- The prefixifier leaves a quoted phrase intact. -/
theorem prefixifyQuery_quoted (p : List Char) (hp : '"' ∉ p) :
    prefixifyQuery ('"' :: (p ++ ['"'])) = '"' :: (p ++ ['"']) := by
  have heq : '"' :: (p ++ ['"']) = ('"' :: p) ++ ['"'] := by simp
  have hstrip : pyStrip ('"' :: (p ++ ['"'])) = '"' :: (p ++ ['"']) := by
    refine pyStrip_eq_self _ ?_ ?_
    · intro hd hh
      simp only [List.head?_cons, Option.some.injEq] at hh
      rw [← hh]
      decide
    · intro l hl
      rw [heq, List.getLast?_concat] at hl
      cases hl
      decide
  simp only [prefixifyQuery, hstrip]
  rw [if_neg (by simp)]
  rw [ftsGo_open_quote, ftsGo_quote p hp [] [] ['"'], ftsGo_nil_empty]
  simp [joinSpace]

/-- C3: the FTS prefixifier splits on white space keeping double-quoted spans
intact, and per token: case-insensitive `AND`/`OR`/`NOT` pass unchanged,
tokens already ending in `*` pass unchanged, all-non-alphanumeric tokens pass
unchanged, quoted phrases get no `*`, and every other bareword gets a
trailing `*`, with a Unicode-aware alphanumeric test so CJK words are
starred: `compile("山田 AND 太郎") = "山田* AND 太郎*"` and a quoted
`"山田 太郎"` is left unmodified. -/
theorem c3_prefixify_tokens :
    prefixifyQuery (strL "山田 AND 太郎") = strL "山田* AND 太郎*" ∧
    prefixifyQuery (strL "\"山田 太郎\"") = strL "\"山田 太郎\"" ∧
    (∀ p, '"' ∉ p → prefixifyQuery ('"' :: (p ++ ['"'])) = '"' :: (p ++ ['"'])) ∧
    (∀ t, bareTokWf t → t.map pyUpperChar ∈ kwUpper → prefixifyQuery t = t) ∧
    (∀ t, bareTokWf t → t.getLast? = some '*' → prefixifyQuery t = t) ∧
    (∀ t, bareTokWf t → (∀ c ∈ t, pyIsAlnum c = false) → prefixifyQuery t = t) ∧
    (∀ t, bareTokWf t → t.map pyUpperChar ∉ kwUpper → t.getLast? ≠ some '*' →
      (∃ c ∈ t, pyIsAlnum c = true) → prefixifyQuery t = t ++ ['*']) ∧
    (∀ toks, toks ≠ [] → (∀ t ∈ toks, ftsTokWf t) →
      prefixifyQuery (joinSpace toks) = joinSpace (toks.filterMap ftsEmit)) := by
  refine ⟨by decide, by decide, prefixifyQuery_quoted, ?_, ?_, ?_, ?_, ?_⟩
  · intro t hb h
    rw [prefixifyQuery_bare t hb, if_pos h]
  · intro t hb h
    rw [prefixifyQuery_bare t hb]
    by_cases h1 : t.map pyUpperChar ∈ kwUpper
    · rw [if_pos h1]
    · rw [if_neg h1, if_pos h]
  · intro t hb h
    rw [prefixifyQuery_bare t hb]
    by_cases h1 : t.map pyUpperChar ∈ kwUpper
    · rw [if_pos h1]
    · rw [if_neg h1]
      by_cases h2 : t.getLast? = some '*'
      · rw [if_pos h2]
      · rw [if_neg h2, if_pos ?_]
        rw [List.all_eq_true]
        intro c hc
        rw [h c hc]
        rfl
  · intro t hb h1 h2 h3
    rw [prefixifyQuery_bare t hb, if_neg h1, if_neg h2, if_neg ?_]
    rw [List.all_eq_true]
    intro hall
    obtain ⟨c, hc, ha⟩ := h3
    have := hall c hc
    rw [ha] at this
    exact absurd this (by decide)
  · intro toks hne hwf
    cases toks with
    | nil => exact absurd rfl hne
    | cons t ts =>
      have hwt : ftsTokWf t := hwf t (List.mem_cons_self t ts)
      have hjne : joinSpace (t :: ts) ≠ [] := joinSpace_ne_nil t ts (ftsTokWf_ne t hwt)
      have hstrip : pyStrip (joinSpace (t :: ts)) = joinSpace (t :: ts) := by
        refine pyStrip_eq_self _ ?_ ?_
        · intro hd hh
          rw [joinSpace_head? t ts (ftsTokWf_ne t hwt)] at hh
          exact ftsTokWf_head_not_space t hwt hd hh
        · intro l hl
          obtain ⟨u, hu, he⟩ := joinSpace_getLast? ts t
            (fun x hx => ftsTokWf_ne x (hwf x hx))
          rw [he] at hl
          exact ftsTokWf_last_not_space u (hwf u hu) l hl
      simp only [prefixifyQuery, hstrip, if_neg hjne]
      rw [ftsGo_join (t :: ts) (by simp) hwf []]
      simp

/-- C3 witness: the keyword `AND` passes unchanged and the bareword `xy`
(alphanumeric, not a keyword, no star) receives a star. -/
theorem c3_prefixify_tokens_witness :
    prefixifyQuery (strL "AND") = strL "AND" ∧
    prefixifyQuery (strL "xy") = strL "xy" ++ ['*'] := by
  constructor
  · exact c3_prefixify_tokens.2.2.2.1 (strL "AND") ⟨by decide, by decide⟩ (by decide)
  · exact c3_prefixify_tokens.2.2.2.2.2.2.1 (strL "xy") ⟨by decide, by decide⟩
      (by decide) (by decide) ⟨'x', by decide, by decide⟩

/-- Escaped text never contains `<` (it is escaped to `&lt;`). -/
theorem htmlEscape_no_lt (s : List Char) : '<' ∉ htmlEscape s := by
  intro h
  rw [htmlEscape, List.mem_flatMap] at h
  obtain ⟨c, _, hmem⟩ := h
  unfold escChar at hmem
  repeat' split at hmem
  all_goals try exact absurd hmem (by decide)
  rw [List.mem_singleton] at hmem
  exact absurd hmem.symm (by assumption)

/-- `stripMarks` copies a character other than `<`. -/
theorem stripMarks_cons_ne (c : Char) (r : List Char) (h : c ≠ '<') :
    stripMarks (c :: r) = c :: stripMarks r := by
  rw [stripMarks.eq_def]
  simp only [if_neg h]

/-- `stripMarks` copies a `<`-free block verbatim. -/
theorem stripMarks_append_no_lt :
    ∀ (a r : List Char), '<' ∉ a → stripMarks (a ++ r) = a ++ stripMarks r := by
  intro a
  induction a with
  | nil => intro r _; rfl
  | cons c a' ih =>
    intro r h
    have hc : c ≠ '<' := fun e => h (e ▸ List.mem_cons_self c a')
    have ha : '<' ∉ a' := fun e => h (List.mem_cons_of_mem c e)
    rw [List.cons_append, stripMarks_cons_ne c (a' ++ r) hc, ih r ha]
    rfl

/-- `stripMarks` of the empty string. -/
theorem stripMarks_nil : stripMarks [] = [] := by
  rw [stripMarks.eq_def]

/-- `stripMarks` on a `<`-free string is the identity. -/
theorem stripMarks_no_lt (a : List Char) (h : '<' ∉ a) : stripMarks a = a := by
  have := stripMarks_append_no_lt a [] h
  simpa [stripMarks_nil] using this

/-- `stripMarks` consumes an opening mark tag. -/
theorem stripMarks_mark_open (x : List Char) :
    stripMarks (strL "<mark>" ++ x) = stripMarks x := by
  show stripMarks ('<' :: 'm' :: 'a' :: 'r' :: 'k' :: '>' :: x) = stripMarks x
  rw [stripMarks.eq_def]
  rfl

/-- `stripMarks` consumes a closing mark tag. -/
theorem stripMarks_mark_close (x : List Char) :
    stripMarks (strL "</mark>" ++ x) = stripMarks x := by
  show stripMarks ('<' :: '/' :: 'm' :: 'a' :: 'r' :: 'k' :: '>' :: x) = stripMarks x
  rw [stripMarks.eq_def]
  rfl

/-- A successful case-insensitive match returns exactly the corresponding
prefix of the subject. -/
theorem ciSpan_spec :
    ∀ (t s sp : List Char), ciSpan t s = some sp →
      sp = s.take t.length ∧ t.length ≤ s.length := by
  intro t
  induction t with
  | nil =>
    intro s sp h
    simp only [ciSpan, Option.some.injEq] at h
    simp [← h]
  | cons a t' ih =>
    intro s sp h
    cases s with
    | nil => simp [ciSpan] at h
    | cons b s' =>
      simp only [ciSpan] at h
      by_cases hl : pyLowerChar a = pyLowerChar b
      · rw [if_pos hl] at h
        cases hc : ciSpan t' s' with
        | none => rw [hc] at h; simp at h
        | some sp' =>
          rw [hc] at h
          simp only [Option.some.injEq] at h
          obtain ⟨h1, h2⟩ := ih s' sp' hc
          constructor
          · rw [← h, h1]
            rfl
          · simpa using Nat.succ_le_succ h2
      · rw [if_neg hl] at h
        simp at h

/-- Every span found by the combined alternation is a non-empty prefix of the
subject. -/
theorem firstSpan_spec (terms : List (List Char)) (s sp : List Char)
    (h : firstSpan terms s = some sp) :
    1 ≤ sp.length ∧ sp.length ≤ s.length ∧ sp = s.take sp.length := by
  obtain ⟨t, _, hf⟩ := List.exists_of_findSome?_eq_some h
  by_cases ht : t = []
  · rw [if_pos ht] at hf
    cases hf
  · rw [if_neg ht] at hf
    obtain ⟨h1, h2⟩ := ciSpan_spec t s sp hf
    have hlen : sp.length = t.length := by
      rw [h1, List.length_take]
      omega
    have htp : 1 ≤ t.length := by
      cases t with
      | nil => exact absurd rfl ht
      | cons a r => simp
    refine ⟨by omega, by omega, ?_⟩
    rw [hlen, h1]

/-- Removing the inserted mark tags from the substitution output recovers the
escaped text. -/
theorem stripMarks_subMarkF :
    ∀ (f : Nat) (terms : List (List Char)) (s : List Char),
      s.length ≤ f → '<' ∉ s → stripMarks (subMarkF f terms s) = s := by
  intro f
  induction f with
  | zero =>
    intro terms s hf _
    have : s = [] := List.length_eq_zero.mp (Nat.le_zero.mp hf)
    rw [this]
    exact stripMarks_nil
  | succ f ih =>
    intro terms s hf hlt
    cases s with
    | nil => exact stripMarks_nil
    | cons c rest =>
      simp only [subMarkF]
      cases hfs : firstSpan terms (c :: rest) with
      | none =>
        have hc : c ≠ '<' := fun e => hlt (e ▸ List.mem_cons_self c rest)
        have hr : '<' ∉ rest := fun e => hlt (List.mem_cons_of_mem c e)
        rw [stripMarks_cons_ne c _ hc, ih terms rest (by simpa using hf) hr]
      | some sp =>
        obtain ⟨h1, h2, h3⟩ := firstSpan_spec terms (c :: rest) sp hfs
        dsimp only
        have hsp_lt : '<' ∉ sp := by
          intro hm
          exact hlt (List.mem_of_mem_take (h3 ▸ hm))
        have hdrop_lt : '<' ∉ (c :: rest).drop sp.length := fun hm =>
          hlt (List.mem_of_mem_drop hm)
        have hdlen : ((c :: rest).drop sp.length).length ≤ f := by
          rw [List.length_drop]
          simp only [List.length_cons] at hf ⊢
          omega
        rw [List.append_assoc, List.append_assoc, stripMarks_mark_open,
          stripMarks_append_no_lt sp _ hsp_lt, stripMarks_mark_close,
          ih terms _ hdlen hdrop_lt]
        conv_rhs => rw [← List.take_append_drop sp.length (c :: rest)]
        rw [← h3]

/-- Adjacency relation used to rule out `<mark>` occurrences: a `<` may only
be followed by `b` (as in the inserted `<br>`). -/
def chR (a b : Char) : Prop := a ≠ '<' ∨ b = 'b'

/-- In `nlToBr` of a `<`-free string, every `<` is followed by `b`. -/
theorem chainR_nlToBr : ∀ (s : List Char), '<' ∉ s → List.Chain' chR (nlToBr s) := by
  intro s
  induction s with
  | nil => intro _; exact List.chain'_nil
  | cons c s' ih =>
    intro h
    have hc : c ≠ '<' := fun e => h (e ▸ List.mem_cons_self c s')
    have hs : '<' ∉ s' := fun e => h (List.mem_cons_of_mem c e)
    have hnl : nlToBr (c :: s') =
        (if c = '\n' then strL "<br>" else [c]) ++ nlToBr s' := by
      simp [nlToBr]
    rw [hnl, List.chain'_append]
    refine ⟨?_, ih hs, ?_⟩
    · by_cases hn : c = '\n'
      · rw [if_pos hn]
        show List.Chain' chR ['<', 'b', 'r', '>']
        refine List.chain'_cons.mpr ⟨Or.inr rfl, ?_⟩
        refine List.chain'_cons.mpr ⟨Or.inl (by decide), ?_⟩
        refine List.chain'_cons.mpr ⟨Or.inl (by decide), ?_⟩
        exact List.chain'_singleton '>'
      · rw [if_neg hn]
        exact List.chain'_singleton c
    · intro x hx y _
      by_cases hn : c = '\n'
      · rw [if_pos hn] at hx
        have hg : (strL "<br>").getLast? = some '>' := rfl
        rw [hg] at hx
        cases hx
        exact Or.inl (by decide)
      · rw [if_neg hn] at hx
        have hg : ([c] : List Char).getLast? = some c := rfl
        rw [hg] at hx
        cases hx
        exact Or.inl hc

/-- A string in which every `<` is followed by `b` contains no `<mark>`. -/
theorem no_mark_of_chain (l : List Char) (h : List.Chain' chR l) :
    ¬ (strL "<mark>" <:+: l) := by
  intro hin
  obtain ⟨u, v, he⟩ := hin
  rw [← he, List.chain'_append] at h
  obtain ⟨h1, -, -⟩ := h
  rw [List.chain'_append] at h1
  obtain ⟨-, h2, -⟩ := h1
  have h3 : List.Chain' chR ('<' :: 'm' :: strL "ark>") := h2
  have h4 := (List.chain'_cons.mp h3).1
  rcases h4 with hl | hr
  · exact hl rfl
  · exact absurd hr (by decide)

/-- `highlight_text_html` when no terms are extracted. -/
theorem highlight_empty_terms (text query : List Char)
    (h : (if extractTermsLogical (pyStrip query) = []
        then extractTermsSimple (pyStrip query)
        else extractTermsLogical (pyStrip query)) = []) :
    highlightTextHtml text query = divOpen ++ nlToBr (htmlEscape text) ++ divClose := by
  simp only [highlightTextHtml]
  rw [if_pos h]

/-- `highlight_text_html` when terms are extracted. -/
theorem highlight_with_terms (text query : List Char)
    (h : ¬ (if extractTermsLogical (pyStrip query) = []
        then extractTermsSimple (pyStrip query)
        else extractTermsLogical (pyStrip query)) = []) :
    highlightTextHtml text query =
      divOpen ++
        nlToBr (subMark
          (sortLenDesc (dedupGo []
            (if extractTermsLogical (pyStrip query) = []
              then extractTermsSimple (pyStrip query)
              else extractTermsLogical (pyStrip query))))
          (htmlEscape text)) ++ divClose := by
  simp only [highlightTextHtml]
  rw [if_neg h]

/-- C5: the highlighter returns the fixed `<div>` container around the
HTML-escaped input text with `\n` → `<br>`, where the only markup added to
the escaped text is the `<mark>` wrappers around matched term spans —
removing every `<mark>`/`</mark>` recovers the escaped text exactly; for an
empty query the body is the escaped text with newline conversion and contains
zero `<mark>` tags. -/
theorem c5_highlight_additive (text query : List Char) :
    ∃ m, highlightTextHtml text query = divOpen ++ nlToBr m ++ divClose ∧
      stripMarks m = htmlEscape text ∧
      (pyStrip query = [] →
        m = htmlEscape text ∧ ¬ (strL "<mark>" <:+: nlToBr m)) := by
  by_cases h : (if extractTermsLogical (pyStrip query) = []
      then extractTermsSimple (pyStrip query)
      else extractTermsLogical (pyStrip query)) = []
  · refine ⟨htmlEscape text, highlight_empty_terms text query h,
      stripMarks_no_lt _ (htmlEscape_no_lt text), ?_⟩
    intro _
    exact ⟨rfl, no_mark_of_chain _ (chainR_nlToBr _ (htmlEscape_no_lt text))⟩
  · refine ⟨subMark
      (sortLenDesc (dedupGo []
        (if extractTermsLogical (pyStrip query) = []
          then extractTermsSimple (pyStrip query)
          else extractTermsLogical (pyStrip query))))
      (htmlEscape text), highlight_with_terms text query h, ?_, ?_⟩
    · exact stripMarks_subMarkF (htmlEscape text).length _ (htmlEscape text)
        (le_refl _) (htmlEscape_no_lt text)
    · intro hq
      exfalso
      apply h
      rw [hq]
      decide

/-- C5 witness: for the empty query, the highlighter returns the div
container around the escaped text with newline conversion. -/
theorem c5_highlight_additive_witness :
    highlightTextHtml (strL "a\nb") [] =
      divOpen ++ nlToBr (htmlEscape (strL "a\nb")) ++ divClose := by
  obtain ⟨m, h1, -, h3⟩ := c5_highlight_additive (strL "a\nb") []
  obtain ⟨hm, -⟩ := h3 rfl
  rw [hm] at h1
  exact h1
